import Mathlib

/-!
Shallow embedding of the txkv transactional key-value store (src/txkv.go).

Keys and values are opaque byte sequences, modelled as lists of naturals.
The ordered-map collaborator (`internal/ds.SortedBytesToBytesMap` and
`ds.SortedBytesSet`) is not part of the sources; its operations are
modelled from the spec (section 4.1) as noted on each definition.
The store `memkv` and the transaction `txmemkv` are translated from
src/txkv.go.  Mutexes and the context argument have no behavioural
content in the source (every operation returns a nil error), so the
embedding is purely functional state passing.
-/

/-- A key is an opaque byte sequence (Go `[]byte`). -/
abbrev Key : Type := List Nat

/-- A value is an opaque byte sequence (Go `[]byte`). -/
abbrev Value : Type := List Nat

/-- Lexicographic byte order, as implemented by Go `bytes.Compare < 0`:
element-wise comparison, a strict byte-prefix is smaller than its extension. -/
def keyLt : List Nat → List Nat → Bool
  | [], [] => false
  | [], _ :: _ => true
  | _ :: _, [] => false
  | a :: as, b :: bs => if a < b then true else if b < a then false else keyLt as bs

/-- Go `bytes.HasPrefix(k, pre)`: `pre` is a byte-prefix of `k`
(arguments here: first the pattern `pre`, then the key). -/
def hasPrefixB : List Nat → List Nat → Bool
  | [], _ => true
  | _ :: _, [] => false
  | a :: as, b :: bs => a == b && hasPrefixB as bs

theorem keyLt_irrefl (a : List Nat) : keyLt a a = false := by
  induction a with
  | nil => rfl
  | cons x xs ih => simp [keyLt, ih]

theorem keyLt_trans {a b c : List Nat} (hab : keyLt a b = true)
    (hbc : keyLt b c = true) : keyLt a c = true := by
  induction a generalizing b c with
  | nil =>
    cases b with
    | nil => simp [keyLt] at hab
    | cons y ys =>
      cases c with
      | nil => simp [keyLt] at hbc
      | cons z zs => rfl
  | cons x xs ih =>
    cases b with
    | nil => simp [keyLt] at hab
    | cons y ys =>
      cases c with
      | nil => simp [keyLt] at hbc
      | cons z zs =>
        simp only [keyLt] at hab hbc ⊢
        rcases Nat.lt_trichotomy x y with hxy | hxy | hxy
        · rcases Nat.lt_trichotomy y z with hyz | hyz | hyz
          · simp [Nat.lt_trans hxy hyz]
          · subst hyz; simp [hxy]
          · simp [Nat.lt_asymm hyz, hyz] at hbc
        · subst hxy
          rcases Nat.lt_trichotomy x z with hyz | hyz | hyz
          · simp [hyz]
          · subst hyz
            simp only [Nat.lt_irrefl, if_false] at hab hbc ⊢
            exact ih hab hbc
          · simp [Nat.lt_asymm hyz, hyz] at hbc
        · simp [Nat.lt_asymm hxy, hxy] at hab

theorem keyLt_false_cases {a b : List Nat} (h : keyLt a b = false) :
    a = b ∨ keyLt b a = true := by
  induction a generalizing b with
  | nil =>
    cases b with
    | nil => exact Or.inl rfl
    | cons y ys => simp [keyLt] at h
  | cons x xs ih =>
    cases b with
    | nil => exact Or.inr rfl
    | cons y ys =>
      simp only [keyLt] at h ⊢
      rcases Nat.lt_trichotomy x y with hxy | hxy | hxy
      · simp [hxy] at h
      · subst hxy
        simp only [Nat.lt_irrefl, if_false] at h ⊢
        rcases ih h with heq | hlt
        · exact Or.inl (by rw [heq])
        · exact Or.inr hlt
      · exact Or.inr (by simp [hxy])

theorem keyLt_asymm {a b : List Nat} (h : keyLt a b = true) : keyLt b a = false := by
  by_contra hcon
  have hba : keyLt b a = true := by
    cases hb : keyLt b a with
    | false => exact absurd hb hcon
    | true => rfl
  have := keyLt_trans h hba
  rw [keyLt_irrefl] at this
  exact Bool.false_ne_true this

/-- A byte-prefix of `k` is never strictly greater than `k`:
if `pre` is a prefix of `k` then `k < pre` is false. -/
theorem keyLt_false_of_hasPrefix {pre k : List Nat} (h : hasPrefixB pre k = true) :
    keyLt k pre = false := by
  induction pre generalizing k with
  | nil =>
    cases k with
    | nil => rfl
    | cons a as => rfl
  | cons p ps ih =>
    cases k with
    | nil => simp [hasPrefixB] at h
    | cons a as =>
      simp only [hasPrefixB, Bool.and_eq_true, beq_iff_eq] at h
      obtain ⟨hpa, hrest⟩ := h
      subst hpa
      simp [keyLt, ih hrest]

/-- Contiguity of prefix matches under the byte order: if `x` is at least
`pre`, does not match `pre`, and `y` is strictly above `x`, then `y` does
not match `pre` either. -/
theorem hasPrefix_false_of_gt {pre x y : List Nat}
    (hx : hasPrefixB pre x = false) (hpx : keyLt x pre = false)
    (hxy : keyLt x y = true) : hasPrefixB pre y = false := by
  induction pre generalizing x y with
  | nil => simp [hasPrefixB] at hx
  | cons p ps ih =>
    cases x with
    | nil => simp [keyLt] at hpx
    | cons a as =>
      cases y with
      | nil => simp [keyLt] at hxy
      | cons c cs =>
        simp only [hasPrefixB, Bool.and_eq_false_iff, beq_eq_false_iff_ne, ne_eq] at hx ⊢
        simp only [keyLt] at hpx hxy
        rcases Nat.lt_trichotomy a p with hap | hap | hap
        · simp [hap] at hpx
        · subst hap
          simp only [Nat.lt_irrefl, if_false] at hpx hxy
          rcases hx with hx | hx
          · exact absurd rfl hx
          · rcases Nat.lt_trichotomy a c with hac | hac | hac
            · -- x < y at the first byte: y cannot start with a = p
              exact Or.inl (by omega)
            · subst hac
              simp only [Nat.lt_irrefl, if_false] at hxy
              exact Or.inr (ih hx hpx hxy)
            · simp [Nat.lt_asymm hac, hac] at hxy
        · -- first byte of x strictly above the pattern byte
          rcases Nat.lt_trichotomy a c with hac | hac | hac
          · exact Or.inl (by omega)
          · subst hac
            exact Or.inl (by omega)
          · simp [Nat.lt_asymm hac, hac] at hxy

/-!
## Ordered-map collaborator

Modelled from the spec (section 4.1): `internal/ds.SortedBytesToBytesMap`
is not in the sources.  The map is a key-sorted association list; the
spec's operations `Put`, `Get`, `Delete`, `Ceiling`, `Max`, `RangedKeys`
follow.
-/

/-- Modelled from the spec: the ordered map `ds.SortedBytesToBytesMap`
is its key-sorted association list of entries. -/
abbrev SMap : Type := List (Key × Value)

/-- Modelled from the spec: `Put(k, v)`, insert or overwrite, keeping
entries in ascending key order. -/
def smapPut (k : Key) (v : Value) : SMap → SMap
  | [] => [(k, v)]
  | (a, w) :: t =>
      if keyLt k a then (k, v) :: (a, w) :: t
      else if k = a then (k, v) :: t
      else (a, w) :: smapPut k v t

/-- Modelled from the spec: `Get(k) → (v, found)`. -/
def smapGet (m : SMap) (k : Key) : Option Value :=
  match m with
  | [] => none
  | (a, w) :: t => if a = k then some w else smapGet t k

/-- Modelled from the spec: `Delete(k)`, remove if present, no-op otherwise. -/
def smapDelete (k : Key) : SMap → SMap
  | [] => []
  | (a, w) :: t => if a = k then smapDelete k t else (a, w) :: smapDelete k t

/-- Modelled from the spec: `Ceiling(k)`, the smallest stored key that is
at least `k`, or not-found if none (first such entry of the sorted list). -/
def smapCeiling (m : SMap) (k : Key) : Option (Key × Value) :=
  m.find? (fun e => !keyLt e.1 k)

/-- Modelled from the spec: `Max()`, the largest stored key, or not-found
if empty (the last entry of the sorted list). -/
def smapMax (m : SMap) : Option (Key × Value) :=
  m.getLast?

/-- Modelled from the spec: the ascending sequence of entries that
`RangedKeys(lo, hi, visit)` presents to its visitor (keys in `[lo, hi]`). -/
def smapRanged (m : SMap) (lo hi : Key) : List (Key × Value) :=
  m.filter (fun e => !keyLt e.1 lo && !keyLt hi e.1)

/-- The store invariant: entries strictly ascending by key (at most one
mapping per key, iteration order key-sorted). -/
abbrev SortedSMap (m : SMap) : Prop :=
  List.Pairwise (fun a b : Key × Value => keyLt a.1 b.1 = true) m

/-!
## The base store `memkv` (src/txkv.go, lines 48-118)

A `memkv` is its ordered map (the mutex only serialises access and the
context and error returns carry no behaviour: every operation returns a
nil error).
-/

/-- The base store state: its ordered map (Go struct `memkv`). -/
abbrev Memkv : Type := SMap

/-- Go `(*memkv).Put` / `(*memkv).put`: unconditional upsert. -/
def memkvPut (m : Memkv) (k : Key) (v : Value) : Memkv := smapPut k v m

/-- Go `(*memkv).Get` / `(*memkv).get`: lookup, `none` encodes found=false. -/
def memkvGet (m : Memkv) (k : Key) : Option Value := smapGet m k

/-- Go `(*memkv).Delete` / `(*memkv).delete`: remove if present. -/
def memkvDelete (m : Memkv) (k : Key) : Memkv := smapDelete k m

/-- Go `(*memkv).List` / `(*memkv).list`: ceiling of the pattern (empty
result if none), bound by the maximum key, ascending range scan collecting
keys while they carry the byte-prefix, stopping at the first mismatch. -/
def memkvList (m : Memkv) (pre : Key) : List Key :=
  match smapCeiling m pre with
  | none => []
  | some f =>
    match smapMax m with
    | none => []
    | some l =>
      ((smapRanged m f.1 l.1).takeWhile (fun e => hasPrefixB pre e.1)).map (fun e => e.1)

/-- Go `newMemKV`: the empty store. -/
def newMemKV : Memkv := []

/-!
## The transaction `txmemkv` (src/txkv.go, lines 111-218)

`updated` and `tombstones` are Go `map[string]struct{}` sets of keys;
they are modelled as lists with set semantics (add-if-absent, remove).
Go iterates such sets in unspecified order; the commit loops below fold
over the list in its order, and the theorems show the outcome is
order-independent (per-key deletes and puts of distinct keys commute).
-/

/-- The transaction state (Go struct `txmemkv`): bound base store, private
overlay store, and the `updated` / `tombstones` key sets. -/
structure Txmemkv where
  root : Memkv
  tx : Memkv
  updated : List Key
  tombstones : List Key

/-- Set insertion for the Go `map[string]struct{}` sets: add if absent. -/
def setAdd (s : List Key) (k : Key) : List Key :=
  if k ∈ s then s else k :: s

/-- Set removal for the Go `map[string]struct{}` sets (Go `delete(m, k)`). -/
def setRemove (s : List Key) (k : Key) : List Key :=
  s.filter (fun x => x ≠ k)

/-- Go `(*memkv).Begin`: a fresh transaction bound to the store, with an
empty overlay and empty `updated` / `tombstones` sets. -/
def beginTx (root : Memkv) : Txmemkv :=
  { root := root, tx := newMemKV, updated := [], tombstones := [] }

/-- Go `(*txmemkv).Put`: un-tombstone the key, mark it updated, and write
the pair into the private overlay.  The base store is not touched. -/
def txPut (st : Txmemkv) (k : Key) (v : Value) : Txmemkv :=
  { st with
    tombstones := setRemove st.tombstones k
    updated := setAdd st.updated k
    tx := memkvPut st.tx k v }

/-- Go `(*txmemkv).Get`: tombstone wins, then the overlay for updated keys,
otherwise delegate to the bound base store's current state. -/
def txGet (st : Txmemkv) (k : Key) : Option Value :=
  if k ∈ st.tombstones then none
  else if k ∈ st.updated then memkvGet st.tx k
  else memkvGet st.root k

/-- Go `(*txmemkv).Delete`: tombstone the key, unmark it updated, and
delete it from the private overlay.  The base store is not touched. -/
def txDelete (st : Txmemkv) (k : Key) : Txmemkv :=
  { st with
    tombstones := setAdd st.tombstones k
    updated := setRemove st.updated k
    tx := memkvDelete st.tx k }

/-- Go `(*txmemkv).List`: the base store's listing with tombstoned keys
filtered out, merged with the overlay's listing through the sorted
deduplicating set `ds.SortedBytesSet`. -/
def setPut (s : List Key) (k : Key) : List Key :=
  match s with
  | [] => [k]
  | a :: t => if keyLt k a then k :: a :: t else if k = a then a :: t else a :: setPut t k

/-- Go `(*txmemkv).List` continued: fold both listings into the sorted set
and read its keys back in ascending order. -/
def txList (st : Txmemkv) (pre : Key) : List Key :=
  let keys := memkvList st.root pre
  let txkeys := memkvList st.tx pre
  let merged := keys.foldl
    (fun acc k => if k ∈ st.tombstones then acc else setPut acc k) []
  (txkeys.foldl (fun acc k => setPut acc k) merged)

/-- Go `(*txmemkv).Commit` on the base map: delete every tombstoned key,
then for every updated key whose overlay still holds a value, write that
value into the base. -/
def commitRoot (st : Txmemkv) : Memkv :=
  st.updated.foldl
    (fun m j => match memkvGet st.tx j with
      | some v => smapPut j v m
      | none => m)
    (st.tombstones.foldl (fun m j => smapDelete j m) st.root)

/-- Go `(*txmemkv).Commit`: applies the buffered deletes and writes to the
bound base store; the transaction's own fields are untouched. -/
def txCommit (st : Txmemkv) : Txmemkv :=
  { st with root := commitRoot st }

/-- Go `(*txmemkv).Rollback`: does nothing. -/
def txRollback (st : Txmemkv) : Txmemkv := st

/-- The transaction invariant of the spec (section 3): `updated` and
`tombstoned` are disjoint, and every updated key has a value in the
overlay. -/
def TxInv (st : Txmemkv) : Prop :=
  ∀ k ∈ st.updated, k ∉ st.tombstones ∧ (memkvGet st.tx k).isSome = true

instance (st : Txmemkv) : Decidable (TxInv st) := by
  unfold TxInv; infer_instance

/-!
## Lemmas about the ordered-map operations
-/

theorem smapGet_put_self (m : SMap) (k : Key) (v : Value) :
    smapGet (smapPut k v m) k = some v := by
  induction m with
  | nil => simp [smapPut, smapGet]
  | cons e t ih =>
    obtain ⟨a, w⟩ := e
    simp only [smapPut]
    by_cases hlt : keyLt k a = true
    · rw [if_pos hlt]; simp [smapGet]
    · rw [if_neg hlt]
      by_cases heq : k = a
      · rw [if_pos heq]; simp [smapGet]
      · rw [if_neg heq]
        have hak : a ≠ k := fun h => heq h.symm
        simp only [smapGet, if_neg hak]
        exact ih

theorem smapGet_put_ne {j k : Key} (hne : j ≠ k) (m : SMap) (v : Value) :
    smapGet (smapPut k v m) j = smapGet m j := by
  have hkj : k ≠ j := fun h => hne h.symm
  induction m with
  | nil => simp [smapPut, smapGet, if_neg hkj]
  | cons e t ih =>
    obtain ⟨a, w⟩ := e
    simp only [smapPut]
    by_cases hlt : keyLt k a = true
    · rw [if_pos hlt]
      simp only [smapGet, if_neg hkj]
    · rw [if_neg hlt]
      by_cases heq : k = a
      · subst heq
        simp only [if_pos rfl, smapGet, if_neg hkj]
      · rw [if_neg heq]
        simp only [smapGet]
        by_cases haj : a = j
        · rw [if_pos haj, if_pos haj]
        · rw [if_neg haj, if_neg haj]
          exact ih

theorem smapGet_delete (k j : Key) (m : SMap) :
    smapGet (smapDelete k m) j = if j = k then none else smapGet m j := by
  induction m with
  | nil => simp [smapDelete, smapGet]
  | cons e t ih =>
    obtain ⟨a, w⟩ := e
    simp only [smapDelete]
    by_cases hak : a = k
    · rw [if_pos hak, ih]
      by_cases hj : j = k
      · rw [if_pos hj, if_pos hj]
      · rw [if_neg hj, if_neg hj]
        have haj : a ≠ j := fun h => hj (h.symm.trans hak)
        simp only [smapGet, if_neg haj]
    · rw [if_neg hak]
      simp only [smapGet]
      by_cases haj : a = j
      · have hjk : ¬ j = k := fun h => hak (haj.trans h)
        rw [if_pos haj, if_neg hjk, if_pos haj]
      · rw [if_neg haj, ih, if_neg haj]

theorem mem_smapPut {e : Key × Value} {m : SMap} {k : Key} {v : Value}
    (h : e ∈ smapPut k v m) : e = (k, v) ∨ e ∈ m := by
  induction m with
  | nil => simp [smapPut] at h; exact Or.inl h
  | cons a t ih =>
    obtain ⟨b, w⟩ := a
    simp only [smapPut] at h
    by_cases hlt : keyLt k b = true
    · rw [if_pos hlt] at h
      rcases List.mem_cons.mp h with h | h
      · exact Or.inl h
      · exact Or.inr h
    · rw [if_neg hlt] at h
      by_cases heq : k = b
      · rw [if_pos heq] at h
        rcases List.mem_cons.mp h with h | h
        · exact Or.inl h
        · exact Or.inr (List.mem_cons_of_mem _ h)
      · rw [if_neg heq] at h
        rcases List.mem_cons.mp h with h | h
        · exact Or.inr (by simp [h])
        · rcases ih h with h' | h'
          · exact Or.inl h'
          · exact Or.inr (List.mem_cons_of_mem _ h')

theorem mem_smapDelete {e : Key × Value} {m : SMap} {k : Key}
    (h : e ∈ smapDelete k m) : e ∈ m := by
  induction m with
  | nil => simp [smapDelete] at h
  | cons a t ih =>
    obtain ⟨b, w⟩ := a
    simp only [smapDelete] at h
    by_cases hbk : b = k
    · rw [if_pos hbk] at h
      exact List.mem_cons_of_mem _ (ih h)
    · rw [if_neg hbk] at h
      rcases List.mem_cons.mp h with h | h
      · simp [h]
      · exact List.mem_cons_of_mem _ (ih h)

theorem sorted_smapPut {m : SMap} (hs : SortedSMap m) (k : Key) (v : Value) :
    SortedSMap (smapPut k v m) := by
  induction m with
  | nil => simp [smapPut]
  | cons a t ih =>
    obtain ⟨b, w⟩ := a
    obtain ⟨hb, ht⟩ := List.pairwise_cons.mp hs
    simp only [smapPut]
    by_cases hlt : keyLt k b = true
    · rw [if_pos hlt]
      refine List.pairwise_cons.mpr ⟨?_, ?_⟩
      · intro e he
        rcases List.mem_cons.mp he with he | he
        · rw [he]; exact hlt
        · exact keyLt_trans hlt (hb e he)
      · exact List.pairwise_cons.mpr ⟨hb, ht⟩
    · rw [if_neg hlt]
      by_cases heq : k = b
      · rw [if_pos heq]
        subst heq
        exact List.pairwise_cons.mpr ⟨hb, ht⟩
      · rw [if_neg heq]
        refine List.pairwise_cons.mpr ⟨?_, ih ht⟩
        intro e he
        rcases mem_smapPut he with he | he
        · rw [he]
          rcases keyLt_false_cases (Bool.eq_false_iff.mpr hlt) with h' | h'
          · exact absurd h' heq
          · exact h'
        · exact hb e he

theorem sorted_smapDelete {m : SMap} (hs : SortedSMap m) (k : Key) :
    SortedSMap (smapDelete k m) := by
  induction m with
  | nil => exact hs
  | cons a t ih =>
    obtain ⟨b, w⟩ := a
    obtain ⟨hb, ht⟩ := List.pairwise_cons.mp hs
    simp only [smapDelete]
    by_cases hbk : b = k
    · rw [if_pos hbk]
      exact ih ht
    · rw [if_neg hbk]
      exact List.pairwise_cons.mpr ⟨fun e he => hb e (mem_smapDelete he), ih ht⟩

theorem sorted_newMemKV : SortedSMap newMemKV := List.Pairwise.nil

/-!
## The prefix-listing algorithm (claim about `(*memkv).list`)
-/

theorem mem_of_smapMax : ∀ {m : SMap} {l : Key × Value}, smapMax m = some l → l ∈ m := by
  intro m
  induction m with
  | nil => intro l h; simp [smapMax] at h
  | cons a t ih =>
    intro l h
    cases t with
    | nil =>
      simp [smapMax] at h
      simp [h]
    | cons b t' =>
      rw [smapMax, List.getLast?_cons_cons] at h
      exact List.mem_cons_of_mem _ (ih h)

/-- In a sorted map the maximum entry is an upper bound on every key. -/
theorem sorted_last_ge : ∀ {m : SMap}, SortedSMap m → ∀ {l : Key × Value},
    smapMax m = some l → ∀ e ∈ m, keyLt l.1 e.1 = false := by
  intro m
  induction m with
  | nil => intro _ l hl; simp [smapMax] at hl
  | cons a t ih =>
    intro hs l hl e he
    obtain ⟨ha, ht⟩ := List.pairwise_cons.mp hs
    cases t with
    | nil =>
      simp [smapMax] at hl
      rcases List.mem_singleton.mp he with rfl
      rw [← hl, keyLt_irrefl]
    | cons b t' =>
      rw [smapMax, List.getLast?_cons_cons] at hl
      have hmem : l ∈ b :: t' := mem_of_smapMax hl
      rcases List.mem_cons.mp he with he | he
      · rw [he]
        exact keyLt_asymm (ha l hmem)
      · exact ih ht hl e he

/-- In a sorted map the ceiling of `p` is the least key at or above `p`. -/
theorem ceiling_is_min : ∀ {m : SMap}, SortedSMap m → ∀ {p : Key} {f : Key × Value},
    smapCeiling m p = some f →
    ∀ e ∈ m, keyLt e.1 p = false → keyLt e.1 f.1 = false := by
  intro m
  induction m with
  | nil => intro _ p f hf; simp [smapCeiling] at hf
  | cons a t ih =>
    intro hs p f hf e he hep
    obtain ⟨ha, ht⟩ := List.pairwise_cons.mp hs
    rw [smapCeiling] at hf
    by_cases hap : keyLt a.1 p = false
    · rw [List.find?_cons_of_pos _ (by simp [hap])] at hf
      rcases Option.some.inj hf with rfl
      rcases List.mem_cons.mp he with he | he
      · rw [he, keyLt_irrefl]
      · exact keyLt_asymm (ha e he)
    · have hap' : keyLt a.1 p = true := by
        cases h' : keyLt a.1 p with
        | false => exact absurd h' hap
        | true => rfl
      rw [List.find?_cons_of_neg _ (by simp [hap'])] at hf
      rcases List.mem_cons.mp he with he | he
      · rw [he] at hep
        rw [hep] at hap'
        exact absurd hap' (by simp)
      · exact ih ht hf e he hep

/-- The ceiling entry itself is at or above the probe key. -/
theorem ceiling_ge {m : SMap} {p : Key} {f : Key × Value}
    (hf : smapCeiling m p = some f) : keyLt f.1 p = false := by
  have := List.find?_some hf
  simpa using this

/-- The ceiling entry belongs to the map. -/
theorem ceiling_mem {m : SMap} {p : Key} {f : Key × Value}
    (hf : smapCeiling m p = some f) : f ∈ m :=
  List.mem_of_find?_eq_some hf

/-- With the ceiling of `p` as the low bound and the maximum as the high
bound, the range scan visits exactly the entries whose key is at least `p`. -/
theorem ranged_eq_filter_ge {m : SMap} (hs : SortedSMap m) {p : Key}
    {f l : Key × Value} (hf : smapCeiling m p = some f) (hl : smapMax m = some l) :
    smapRanged m f.1 l.1 = m.filter (fun e => !keyLt e.1 p) := by
  apply List.filter_congr
  intro e he
  have hhi : keyLt l.1 e.1 = false := sorted_last_ge hs hl e he
  rw [hhi]
  simp only [Bool.not_false, Bool.and_true]
  have hfp : keyLt f.1 p = false := ceiling_ge hf
  cases hep : keyLt e.1 p with
  | false =>
    have := ceiling_is_min hs hf e he hep
    rw [this]
  | true =>
    have hef : keyLt e.1 f.1 = true := by
      rcases keyLt_false_cases hfp with h' | h'
      · rw [← h'] at hep; exact hep
      · exact keyLt_trans hep h'
    rw [hef]

/-- On a sorted run of keys all at or above the pattern, collecting while
the byte-prefix matches and stopping at the first mismatch collects exactly
the matching entries: matches are contiguous. -/
theorem takeWhile_eq_filter_of_ge {p : Key} : ∀ {l : List (Key × Value)},
    List.Pairwise (fun a b : Key × Value => keyLt a.1 b.1 = true) l →
    (∀ e ∈ l, keyLt e.1 p = false) →
    l.takeWhile (fun e => hasPrefixB p e.1) = l.filter (fun e => hasPrefixB p e.1) := by
  intro l
  induction l with
  | nil => intro _ _; rfl
  | cons a t ih =>
    intro hs hge
    obtain ⟨ha, ht⟩ := List.pairwise_cons.mp hs
    cases hpa : hasPrefixB p a.1 with
    | true =>
      rw [List.takeWhile_cons_of_pos (by simp [hpa]), List.filter_cons_of_pos (by simp [hpa])]
      rw [ih ht (fun e he => hge e (List.mem_cons_of_mem _ he))]
    | false =>
      rw [List.takeWhile_cons_of_neg (by simp [hpa]), List.filter_cons_of_neg (by simp [hpa])]
      symm
      rw [List.filter_eq_nil_iff]
      intro e he
      have : hasPrefixB p e.1 = false :=
        hasPrefix_false_of_gt hpa (hge a (List.mem_cons_self a t)) (ha e he)
      simp [this]

/-- The listing algorithm of `(*memkv).list` computes, on a sorted store,
exactly the stored keys carrying the byte-prefix, in store (ascending) order. -/
theorem memkvList_eq_filter {m : Memkv} (hs : SortedSMap m) (pre : Key) :
    memkvList m pre = (m.filter (fun e => hasPrefixB pre e.1)).map (fun e => e.1) := by
  rw [memkvList]
  cases hceil : smapCeiling m pre with
  | none =>
    rw [smapCeiling, List.find?_eq_none] at hceil
    have : m.filter (fun e => hasPrefixB pre e.1) = [] := by
      rw [List.filter_eq_nil_iff]
      intro e he
      have hlt : keyLt e.1 pre = true := by
        have := hceil e he
        simp at this
        exact this
      cases hp : hasPrefixB pre e.1 with
      | false => simp
      | true =>
        have := keyLt_false_of_hasPrefix hp
        rw [this] at hlt
        exact absurd hlt (by simp)
    rw [this]
    rfl
  | some f =>
    cases hmax : smapMax m with
    | none =>
      rw [smapMax, List.getLast?_eq_none_iff] at hmax
      subst hmax
      simp [smapCeiling] at hceil
    | some l =>
      simp only
      rw [ranged_eq_filter_ge hs hceil hmax]
      rw [takeWhile_eq_filter_of_ge (List.Pairwise.filter _ hs) ?side]
      case side =>
        intro e he
        have := (List.mem_filter.mp he).2
        simpa using this
      rw [List.filter_filter]
      congr 1
      apply List.filter_congr
      intro e he
      cases hp : hasPrefixB pre e.1 with
      | false => simp
      | true =>
        have := keyLt_false_of_hasPrefix hp
        simp [this]

/-!
## Commit characterization
-/

theorem get_foldl_delete (ts : List Key) (acc : SMap) (k : Key) :
    smapGet (ts.foldl (fun m j => smapDelete j m) acc) k =
      if k ∈ ts then none else smapGet acc k := by
  induction ts generalizing acc with
  | nil => simp
  | cons j t ih =>
    rw [List.foldl_cons, ih]
    by_cases hkt : k ∈ t
    · rw [if_pos hkt, if_pos (List.mem_cons_of_mem _ hkt)]
    · rw [if_neg hkt, smapGet_delete]
      by_cases hkj : k = j
      · rw [if_pos hkj, if_pos (by rw [hkj]; exact List.mem_cons_self j t)]
      · rw [if_neg hkj, if_neg (by rw [List.mem_cons]; rintro (h | h) <;> [exact hkj h; exact hkt h])]

theorem get_foldl_put (us : List Key) (tx : SMap) (acc : SMap) (k : Key) :
    smapGet (us.foldl (fun m j => match smapGet tx j with
      | some v => smapPut j v m
      | none => m) acc) k =
      if k ∈ us ∧ (smapGet tx k).isSome = true then smapGet tx k else smapGet acc k := by
  induction us generalizing acc with
  | nil => simp
  | cons j t ih =>
    rw [List.foldl_cons, ih]
    by_cases hkt : k ∈ t ∧ (smapGet tx k).isSome = true
    · rw [if_pos hkt, if_pos ⟨List.mem_cons_of_mem _ hkt.1, hkt.2⟩]
    · rw [if_neg hkt]
      by_cases hkj : k = j
      · subst hkj
        cases htx : smapGet tx k with
        | none =>
          simp only [htx]
          rw [if_neg (by simp)]
        | some v =>
          simp only [htx]
          rw [smapGet_put_self, if_pos ⟨List.mem_cons_self k t, rfl⟩]
      · have hnotin : ¬(k ∈ j :: t ∧ (smapGet tx k).isSome = true) := by
          rintro ⟨hmem, hsome⟩
          rcases List.mem_cons.mp hmem with h | h
          · exact hkj h
          · exact hkt ⟨h, hsome⟩
        rw [if_neg hnotin]
        cases htx : smapGet tx j with
        | none => simp only [htx]
        | some v =>
          simp only [htx]
          exact smapGet_put_ne hkj acc v

/-- The per-key outcome of `(*txmemkv).Commit` on the base map: an updated
key whose overlay holds a value gets that value; otherwise a tombstoned key
is gone; otherwise the base mapping is untouched.  This holds for any
iteration order of the two key sets. -/
theorem get_commitRoot (st : Txmemkv) (k : Key) :
    memkvGet (commitRoot st) k =
      if k ∈ st.updated ∧ (memkvGet st.tx k).isSome = true then memkvGet st.tx k
      else if k ∈ st.tombstones then none else memkvGet st.root k := by
  simp only [memkvGet, commitRoot]
  rw [get_foldl_put, get_foldl_delete]

/-!
## The sorted deduplicating merge set (claim about `(*txmemkv).List`)
-/

theorem mem_setPut (s : List Key) (k j : Key) :
    j ∈ setPut s k ↔ j = k ∨ j ∈ s := by
  induction s with
  | nil => simp [setPut]
  | cons a t ih =>
    simp only [setPut]
    by_cases hlt : keyLt k a = true
    · rw [if_pos hlt]
      simp [List.mem_cons, or_comm, or_left_comm]
    · rw [if_neg hlt]
      by_cases heq : k = a
      · rw [if_pos heq]
        constructor
        · intro h; exact Or.inr h
        · rintro (h | h)
          · rw [h, heq]; exact List.mem_cons_self a t
          · exact h
      · rw [if_neg heq]
        simp only [List.mem_cons, ih]
        constructor
        · rintro (h | h | h)
          · exact Or.inr (Or.inl h)
          · exact Or.inl h
          · exact Or.inr (Or.inr h)
        · rintro (h | h | h)
          · exact Or.inr (Or.inl h)
          · exact Or.inl h
          · exact Or.inr (Or.inr h)

theorem sorted_setPut {s : List Key} (hs : List.Pairwise (fun a b : Key => keyLt a b = true) s)
    (k : Key) : List.Pairwise (fun a b : Key => keyLt a b = true) (setPut s k) := by
  induction s with
  | nil => simp [setPut]
  | cons a t ih =>
    obtain ⟨ha, ht⟩ := List.pairwise_cons.mp hs
    simp only [setPut]
    by_cases hlt : keyLt k a = true
    · rw [if_pos hlt]
      refine List.pairwise_cons.mpr ⟨?_, hs⟩
      intro b hb
      rcases List.mem_cons.mp hb with hb | hb
      · rw [hb]; exact hlt
      · exact keyLt_trans hlt (ha b hb)
    · rw [if_neg hlt]
      by_cases heq : k = a
      · rw [if_pos heq]; exact hs
      · rw [if_neg heq]
        refine List.pairwise_cons.mpr ⟨?_, ih ht⟩
        intro b hb
        rcases (mem_setPut t k b).mp hb with hb | hb
        · rw [hb]
          rcases keyLt_false_cases (Bool.eq_false_iff.mpr hlt) with h' | h'
          · exact absurd h' heq
          · exact h'
        · exact ha b hb

theorem mem_foldl_setPut (l acc : List Key) (k : Key) :
    k ∈ l.foldl (fun a j => setPut a j) acc ↔ k ∈ l ∨ k ∈ acc := by
  induction l generalizing acc with
  | nil => simp
  | cons j t ih =>
    rw [List.foldl_cons, ih, mem_setPut, List.mem_cons]
    tauto

theorem sorted_foldl_setPut (l : List Key) {acc : List Key}
    (hacc : List.Pairwise (fun a b : Key => keyLt a b = true) acc) :
    List.Pairwise (fun a b : Key => keyLt a b = true)
      (l.foldl (fun a j => setPut a j) acc) := by
  induction l generalizing acc with
  | nil => exact hacc
  | cons j t ih => exact ih (sorted_setPut hacc j)

theorem mem_foldl_setPut_cond (l acc : List Key) (tomb : List Key) (k : Key) :
    k ∈ l.foldl (fun a j => if j ∈ tomb then a else setPut a j) acc ↔
      (k ∈ l ∧ k ∉ tomb) ∨ k ∈ acc := by
  induction l generalizing acc with
  | nil => simp
  | cons j t ih =>
    rw [List.foldl_cons, ih]
    by_cases hj : j ∈ tomb
    · rw [if_pos hj]
      simp only [List.mem_cons]
      constructor
      · rintro (⟨h, hn⟩ | h)
        · exact Or.inl ⟨Or.inr h, hn⟩
        · exact Or.inr h
      · rintro (⟨h | h, hn⟩ | h)
        · rw [h] at hn; exact absurd hj hn
        · exact Or.inl ⟨h, hn⟩
        · exact Or.inr h
    · rw [if_neg hj]
      simp only [List.mem_cons, mem_setPut]
      constructor
      · rintro (⟨h, hn⟩ | h | h)
        · exact Or.inl ⟨Or.inr h, hn⟩
        · exact Or.inl ⟨Or.inl h, by rw [h]; exact hj⟩
        · exact Or.inr h
      · rintro (⟨h | h, hn⟩ | h)
        · exact Or.inr (Or.inl h)
        · exact Or.inl ⟨h, hn⟩
        · exact Or.inr (Or.inr h)

theorem sorted_foldl_setPut_cond (l : List Key) (tomb : List Key) {acc : List Key}
    (hacc : List.Pairwise (fun a b : Key => keyLt a b = true) acc) :
    List.Pairwise (fun a b : Key => keyLt a b = true)
      (l.foldl (fun a j => if j ∈ tomb then a else setPut a j) acc) := by
  induction l generalizing acc with
  | nil => exact hacc
  | cons j t ih =>
    rw [List.foldl_cons]
    by_cases hj : j ∈ tomb
    · rw [if_pos hj]; exact ih hacc
    · rw [if_neg hj]; exact ih (sorted_setPut hacc j)

/-!
## Set membership helpers for the transaction's key sets
-/

theorem mem_setAdd (s : List Key) (k j : Key) : j ∈ setAdd s k ↔ j = k ∨ j ∈ s := by
  rw [setAdd]
  by_cases h : k ∈ s
  · rw [if_pos h]
    constructor
    · exact Or.inr
    · rintro (rfl | hj)
      · exact h
      · exact hj
  · rw [if_neg h]
    exact List.mem_cons

theorem mem_setRemove (s : List Key) (k j : Key) : j ∈ setRemove s k ↔ j ∈ s ∧ j ≠ k := by
  simp [setRemove]

/-!
## Concrete states used by the witnesses
-/

/-- The stored keys of the spec's listing example: "0", "1", "10", "11",
"12", "13", "2" as byte sequences. -/
def exampleKeys : List Key :=
  [[48], [49], [49, 48], [49, 49], [49, 50], [49, 51], [50]]

/-- The spec's listing example store, built by putting each key. -/
def exampleStore : Memkv :=
  exampleKeys.foldl (fun m k => memkvPut m k [119]) newMemKV

/-- A one-write transaction over an empty base store. -/
def st0 : Txmemkv := txPut (beginTx newMemKV) [1] [7]

/-!
## The claims
-/

/-- C1: `Transaction.Get(k)` resolves in a fixed order: a tombstoned key is
not found; otherwise an updated key is read from the private overlay and is
found there; otherwise the result is exactly the bound base store's current
`Get(k)`. -/
theorem c1_get_resolution (st : Txmemkv) (k : Key) (hinv : TxInv st) :
    (k ∈ st.tombstones → txGet st k = none) ∧
    (k ∉ st.tombstones → k ∈ st.updated →
      txGet st k = memkvGet st.tx k ∧ (memkvGet st.tx k).isSome = true) ∧
    (k ∉ st.tombstones → k ∉ st.updated → txGet st k = memkvGet st.root k) := by
  refine ⟨fun h => ?_, fun h1 h2 => ⟨?_, (hinv k h2).2⟩, fun h1 h2 => ?_⟩
  · rw [txGet, if_pos h]
  · rw [txGet, if_neg h1, if_pos h2]
  · rw [txGet, if_neg h1, if_neg h2]

theorem c1_witness :
    txGet st0 [1] = memkvGet st0.tx [1] ∧ (memkvGet st0.tx [1]).isSome = true :=
  (c1_get_resolution st0 [1] (by decide)).2.1 (by decide) (by decide)

/-- C2: on a sorted store, `Store.List(p)` returns exactly the stored keys
carrying the byte-prefix `p`, in ascending byte order; in particular for
prefix "1" over stored keys {"0","1","10","11","12","13","2"} the result is
["1","10","11","12","13"] in that order. -/
theorem c2_list_spec :
    (∀ (m : Memkv) (pre : Key), SortedSMap m →
      memkvList m pre = (m.filter (fun e => hasPrefixB pre e.1)).map (fun e => e.1) ∧
      List.Pairwise (fun a b : Key => keyLt a b = true) (memkvList m pre)) ∧
    memkvList exampleStore [49] = [[49], [49, 48], [49, 49], [49, 50], [49, 51]] := by
  constructor
  · intro m pre hs
    have heq := memkvList_eq_filter hs pre
    refine ⟨heq, ?_⟩
    rw [heq, List.pairwise_map]
    exact List.Pairwise.filter _ hs
  · decide

theorem c2_witness :
    memkvList exampleStore [49] =
      (exampleStore.filter (fun e => hasPrefixB [49] e.1)).map (fun e => e.1) :=
  (c2_list_spec.1 exampleStore [49] (by decide)).1

/-- C3: `Transaction.List(p)` is the sorted deduplicating merge of the base
store's listing minus the tombstoned keys with the overlay's listing: a key
is in the result exactly when it is in one of those two sources, each key
appears once, and the result ascends in byte order. -/
theorem c3_txList_merge (st : Txmemkv) (pre : Key) :
    (∀ k : Key, k ∈ txList st pre ↔
      (k ∈ memkvList st.root pre ∧ k ∉ st.tombstones) ∨ k ∈ memkvList st.tx pre) ∧
    List.Pairwise (fun a b : Key => keyLt a b = true) (txList st pre) ∧
    List.Nodup (txList st pre) := by
  have hsorted : List.Pairwise (fun a b : Key => keyLt a b = true) (txList st pre) := by
    simp only [txList]
    exact sorted_foldl_setPut _
      (sorted_foldl_setPut_cond _ _ List.Pairwise.nil)
  refine ⟨?_, hsorted, ?_⟩
  · intro k
    simp only [txList]
    rw [mem_foldl_setPut, mem_foldl_setPut_cond]
    simp only [List.not_mem_nil, or_false]
    tauto
  · refine List.Pairwise.imp ?_ hsorted
    intro a b hab hEq
    rw [hEq, keyLt_irrefl] at hab
    exact Bool.false_ne_true hab

/-- C4: commit postcondition on the base store — every tombstoned key is
absent, every updated key whose overlay holds a value maps to that value,
and every other key's mapping is unchanged. -/
theorem c4_commit_postcondition (st : Txmemkv) (hinv : TxInv st) (k : Key) :
    (k ∈ st.tombstones → memkvGet (txCommit st).root k = none) ∧
    (∀ v : Value, k ∈ st.updated → memkvGet st.tx k = some v →
      memkvGet (txCommit st).root k = some v) ∧
    (k ∉ st.tombstones → k ∉ st.updated →
      memkvGet (txCommit st).root k = memkvGet st.root k) := by
  refine ⟨?_, ?_, ?_⟩
  · intro htomb
    show memkvGet (commitRoot st) k = none
    rw [get_commitRoot st k, if_neg ?notupd, if_pos htomb]
    case notupd =>
      rintro ⟨hupd, _⟩
      exact (hinv k hupd).1 htomb
  · intro v hupd hval
    show memkvGet (commitRoot st) k = some v
    rw [get_commitRoot st k, if_pos ⟨hupd, by rw [hval]; rfl⟩, hval]
  · intro htomb hupd
    show memkvGet (commitRoot st) k = memkvGet st.root k
    rw [get_commitRoot st k, if_neg (fun h => hupd h.1), if_neg htomb]

theorem c4_witness : memkvGet (txCommit st0).root [1] = some [7] :=
  (c4_commit_postcondition st0 (by decide) [1]).2.1 [7] (by decide) (by decide)

/-- C5: the transaction invariant — disjointness of `updated` and
`tombstones`, and every updated key holding a value in the overlay — is
true of the state `Begin` creates and is preserved by `Put`, `Delete`,
`Commit` and `Rollback` (`Get` and `List` do not change the state). -/
theorem c5_invariant_preservation :
    (∀ m : Memkv, TxInv (beginTx m)) ∧
    (∀ (st : Txmemkv) (k : Key) (v : Value), TxInv st → TxInv (txPut st k v)) ∧
    (∀ (st : Txmemkv) (k : Key), TxInv st → TxInv (txDelete st k)) ∧
    (∀ st : Txmemkv, TxInv st → TxInv (txCommit st)) ∧
    (∀ st : Txmemkv, TxInv st → TxInv (txRollback st)) := by
  refine ⟨?_, ?_, ?_, fun st h => h, fun st h => h⟩
  · intro m k hk
    simp [beginTx] at hk
  · intro st k v hinv j hj
    have hj' : j = k ∨ j ∈ st.updated := (mem_setAdd st.updated k j).mp hj
    constructor
    · show j ∉ setRemove st.tombstones k
      rw [mem_setRemove]
      rintro ⟨hmem, hne⟩
      rcases hj' with rfl | hj'
      · exact hne rfl
      · exact (hinv j hj').1 hmem
    · show (memkvGet (memkvPut st.tx k v) j).isSome = true
      by_cases hjk : j = k
      · subst hjk
        have : memkvGet (memkvPut st.tx j v) j = some v := smapGet_put_self st.tx j v
        rw [this]; rfl
      · have : memkvGet (memkvPut st.tx k v) j = memkvGet st.tx j :=
          smapGet_put_ne hjk st.tx v
        rw [this]
        rcases hj' with rfl | hj'
        · exact absurd rfl hjk
        · exact (hinv j hj').2
  · intro st k hinv j hj
    have hj' : j ∈ st.updated ∧ j ≠ k := (mem_setRemove st.updated k j).mp hj
    constructor
    · show j ∉ setAdd st.tombstones k
      rw [mem_setAdd]
      rintro (rfl | hmem)
      · exact hj'.2 rfl
      · exact (hinv j hj'.1).1 hmem
    · show (memkvGet (memkvDelete st.tx k) j).isSome = true
      have : memkvGet (memkvDelete st.tx k) j =
          if j = k then none else memkvGet st.tx j := smapGet_delete k j st.tx
      rw [this, if_neg hj'.2]
      exact (hinv j hj'.1).2

theorem c5_witness : TxInv (txPut (beginTx newMemKV) [1] [7]) :=
  c5_invariant_preservation.2.1 (beginTx newMemKV) [1] [7]
    (c5_invariant_preservation.1 newMemKV)

/-- C6: `Transaction.Put` and `Transaction.Delete` leave the base store
untouched; for a key absent from the base, after `tx.Put(k, v)` the base
`Get(k)` is still not found while `tx.Get(k)` returns `v`, and after
`Commit` the base `Get(k)` returns `v`. -/
theorem c6_isolation :
    (∀ (st : Txmemkv) (k : Key) (v : Value), (txPut st k v).root = st.root) ∧
    (∀ (st : Txmemkv) (k : Key), (txDelete st k).root = st.root) ∧
    (∀ (st : Txmemkv) (k : Key) (v : Value), memkvGet st.root k = none →
      txGet (txPut st k v) k = some v ∧
      memkvGet (txPut st k v).root k = none ∧
      memkvGet (txCommit (txPut st k v)).root k = some v) := by
  refine ⟨fun _ _ _ => rfl, fun _ _ => rfl, ?_⟩
  intro st k v hnone
  have htomb : k ∉ (txPut st k v).tombstones := by
    show k ∉ setRemove st.tombstones k
    rw [mem_setRemove]
    rintro ⟨_, hne⟩
    exact hne rfl
  have hupd : k ∈ (txPut st k v).updated := by
    show k ∈ setAdd st.updated k
    rw [mem_setAdd]
    exact Or.inl rfl
  have hget : memkvGet (txPut st k v).tx k = some v := smapGet_put_self st.tx k v
  refine ⟨?_, hnone, ?_⟩
  · rw [txGet, if_neg htomb, if_pos hupd, hget]
  · show memkvGet (commitRoot (txPut st k v)) k = some v
    rw [get_commitRoot, if_pos ⟨hupd, by rw [hget]; rfl⟩, hget]

theorem c6_witness :
    txGet (txPut (beginTx newMemKV) [1] [7]) [1] = some [7] ∧
    memkvGet (txPut (beginTx newMemKV) [1] [7]).root [1] = none ∧
    memkvGet (txCommit (txPut (beginTx newMemKV) [1] [7])).root [1] = some [7] :=
  c6_isolation.2.2 (beginTx newMemKV) [1] [7] (by decide)

/-- C8: committing twice in a row leaves the base store with exactly the
same mapping as committing once. -/
theorem c8_commit_idempotent (st : Txmemkv) (k : Key) :
    memkvGet (txCommit (txCommit st)).root k = memkvGet (txCommit st).root k := by
  have hu : (txCommit st).updated = st.updated := rfl
  have ht : (txCommit st).tombstones = st.tombstones := rfl
  have htx : (txCommit st).tx = st.tx := rfl
  have hr : (txCommit st).root = commitRoot st := rfl
  show memkvGet (commitRoot (txCommit st)) k = memkvGet (commitRoot st) k
  rw [get_commitRoot (txCommit st) k, hu, ht, htx, hr]
  by_cases h1 : k ∈ st.updated ∧ (memkvGet st.tx k).isSome = true
  · rw [if_pos h1, get_commitRoot st k, if_pos h1]
  · rw [if_neg h1]
    by_cases h2 : k ∈ st.tombstones
    · rw [if_pos h2, get_commitRoot st k, if_neg h1, if_pos h2]
    · rw [if_neg h2, get_commitRoot st k, if_neg h1, if_neg h2]

/-- C9: `Rollback` performs no cleanup at all — the whole transaction
state, base store included, is exactly what it was before the call. -/
theorem c9_rollback_noop (st : Txmemkv) : txRollback st = st := rfl

/-- C10: `Commit` leaves the transaction's own overlay and key sets exactly
as they were, so the buffered writes stay pending; in particular a
`Rollback` followed by a `Commit` still commits everything. -/
theorem c10_commit_preserves_tx_state (st : Txmemkv) :
    (txCommit st).tx = st.tx ∧ (txCommit st).updated = st.updated ∧
    (txCommit st).tombstones = st.tombstones ∧
    txCommit (txRollback st) = txCommit st :=
  ⟨rfl, rfl, rfl, rfl⟩
